import Mathlib

/-!
Verification of the scspell core (`src/scspell_lib/__init__.py`).

Source text is modelled as `List Char`; the Python code treats file content as a
raw byte string and only ever interprets the ASCII word-character classes, so
character lists with ASCII-only case mapping are a faithful carrier.
-/

namespace Scspell

/-- `LEN_THRESHOLD = 3` (line 37): subtokens of length at most 3 are presumed
abbreviations and skipped. -/
def LEN_THRESHOLD : Nat := 3

/-- `CONTEXT_SIZE = 4` (line 36): size of the context printed upon request. -/
def CONTEXT_SIZE : Nat := 4

/-- Character class of `token_regex = re.compile(r'\w+')` (line 48): in Python 2
without `re.UNICODE`, `\w` is `[A-Za-z0-9_]`. -/
def isWordChar (c : Char) : Bool := c.isAlphanum || c == '_'

/-- Character class of `us_regex = re.compile(r'[_\d]+')` (line 56). -/
def isUsChar (c : Char) : Bool := c == '_' || c.isDigit

/-- Hex digit class of `hex_regex` (line 52): `[0-9a-fA-F]`. -/
def isHexDigitCh (c : Char) : Bool :=
  c.isDigit || ('a' ≤ c && c ≤ 'f') || ('A' ≤ c && c ≤ 'F')

/-- `hex_regex.match(token) is not None` (lines 52 and 251): `re.match` anchors
at the start of the string only, so the token matches as soon as it begins with
`0x` followed by at least one hex digit. -/
def hex_regex_match (t : List Char) : Bool :=
  match t with
  | '0' :: 'x' :: c :: _ => isHexDigitCh c
  | _ => false

/-- `us_regex.split(token)` (line 148): `re.split` on the pattern `[_\d]+`
(no capture group) cuts the string at every maximal run of underscores/digits,
discarding the runs and keeping the (possibly empty) pieces between them. -/
def splitRuns (p : Char → Bool) : List Char → List (List Char)
  | [] => [[]]
  | c :: cs =>
    let r := splitRuns p cs
    if p c then
      match cs with
      | [] => [] :: r
      | d :: _ => if p d then r else [] :: r
    else
      match r with
      | [] => [[c]]
      | piece :: rest => (c :: piece) :: rest

/-- `camel_word_regex.split(us_part)` (lines 57 and 153): `re.split` on
`([A-Z][a-z]*)` — the whole pattern is one capture group, so the matched
camel-words are kept in the result, interleaved with the (possibly empty)
gaps between them.  Each match is a capital letter followed by the maximal
run of lower-case letters. -/
def camelSplit : List Char → List (List Char)
  | [] => [[]]
  | c :: cs =>
    let r := camelSplit cs
    if c.isUpper then
      match r with
      | [] => [[], [c]]
      | g :: rest =>
        [] :: (c :: g.takeWhile Char.isLower) :: g.dropWhile Char.isLower :: rest
    else
      match r with
      | [] => [[c]]
      | g :: rest => (c :: g) :: rest

/-- Python `str.isupper()`: true iff the string has at least one cased
character and every cased character is upper-case (ASCII, the default
Python 2 locale). -/
def pyIsUpper (s : List Char) : Bool :=
  s.any Char.isAlpha && s.all (fun c => !c.isAlpha || c.isUpper)

/-- Python `str.lower()` on an ASCII byte string: lower-case each character. -/
def lowerStr (s : List Char) : List Char := s.map Char.toLower

/-- `decompose_token` (lines 139-156): split on underscore/digit runs; if the
concatenation of the resulting pieces is entirely upper-case the pieces are the
subtokens (a CONSTANT_DEFINE_OF_SOME_SORT), otherwise every piece is further
camel-split; finally all non-empty subtokens are lower-cased. -/
def decompose_token (token : List Char) : List (List Char) :=
  let us_parts := splitRuns isUsChar token
  let subtokens :=
    if pyIsUpper us_parts.flatten then us_parts
    else (us_parts.map camelSplit).flatten
  (subtokens.filter (fun st => !st.isEmpty)).map lowerStr

/-- `make_unique` (lines 128-136): remove duplicates, keeping first occurrences. -/
def make_unique (items : List (List Char)) : List (List Char) :=
  items.foldl (fun acc i => if acc.contains i then acc else acc ++ [i]) []

/-- The three dictionary tiers.  Tier 3 is keyed by file extension; an
extension with no list is modelled by the key mapping to `[]`. -/
structure CorporaFile where
  natural : List (List Char)
  keywords : List (List Char)
  filetype : List Char → List (List Char)

/-- Modelled from the spec: `CorporaFile.match` lives in `_corpus.py`, which is
not part of src/.  Spec section 3: "a token is 'known' if it case-insensitively
matches any entry in tier 1, tier 2, or the tier-3 list keyed by the current
file's extension"; tier-3 lookup is a no-op when no list exists for the
extension (empty list).  The extension is passed directly; extracting it from
the file name also happens in the missing `_corpus.py`. -/
def corporaMatch (dicts : CorporaFile) (w ext : List Char) : Bool :=
  (dicts.natural ++ dicts.keywords ++ dicts.filetype ext).any
    (fun e => lowerStr e == lowerStr w)

/-- One terminating operator choice at the escalation prompt of
`handle_failed_check` (lines 198-235).  The (c)ontext branch loops back to the
same prompt and the CTRL-C/D/Z inputs terminate the process, so neither
produces a `(text, ofs)` result; they are not actions of this type. -/
inductive UserAction where
  | ignoreOnce
  | ignoreAll
  | replaceOnce (replacement : List Char)
  | replaceAllOcc (replacement : List Char)
  | addToDict
deriving DecidableEq

/-- The `(text, ofs)` pair returned by the correction engine, together with the
session ignore set it may have extended (`ignores` is mutated in place in the
Python code). -/
structure CheckResult where
  text : List Char
  ofs : Nat
  ignores : List (List Char)
deriving DecidableEq

/-- One parsed element of a `re.sub` replacement template: a literal character
or a reference to group 0 (the whole match).  The pattern compiled at line 197
is `re.escape(token)`, which has no capturing groups, so group 0 is the only
group a template can reference without raising. -/
inductive TemplItem where
  | lit (c : Char)
  | group0
deriving DecidableEq

/-- The `ESCAPES` table of Python 2.7 `sre_parse`, restricted to its use in
replacement templates: the letter escapes that expand to control characters,
and the doubled backslash. -/
def ESCAPES (c : Char) : Option Char :=
  if c = 'a' then some (Char.ofNat 7)
  else if c = 'b' then some (Char.ofNat 8)
  else if c = 'f' then some (Char.ofNat 12)
  else if c = 'n' then some (Char.ofNat 10)
  else if c = 'r' then some (Char.ofNat 13)
  else if c = 't' then some (Char.ofNat 9)
  else if c = 'v' then some (Char.ofNat 11)
  else if c = '\\' then some '\\'
  else none

def isOctDigitCh (c : Char) : Bool := '0' ≤ c && c ≤ '7'

def octVal (c : Char) : Nat := c.toNat - '0'.toNat

/-- Whitespace accepted by Python `int()` around a numeral. -/
def isPySpace (c : Char) : Bool :=
  c = ' ' || c = '\t' || c = '\n' || c = '\r' ||
  c = Char.ofNat 11 || c = Char.ofNat 12

def pyDigitsVal (ds : List Char) : Option Int :=
  if ds ≠ [] ∧ ds.all Char.isDigit then
    some (ds.foldl (fun a c => a * 10 + ((c.toNat : Int) - ('0'.toNat : Int))) 0)
  else none

/-- Python `int(name)` on a byte string: strip surrounding whitespace, allow
one optional sign, then at least one decimal digit; `none` when `int`
raises. -/
def pyInt (s : List Char) : Option Int :=
  match ((s.dropWhile isPySpace).reverse.dropWhile isPySpace).reverse with
  | '+' :: ds => pyDigitsVal ds
  | '-' :: ds => (pyDigitsVal ds).map (fun v => -v)
  | ds => pyDigitsVal ds

/-- One escape sequence of a replacement template, Python 2.7
`sre_parse.parse_template` semantics for a pattern with zero capturing
groups.  The input is the text after the backslash; the result is the parsed
items and the remaining text, or `none` when the parser raises:

  * `\g<name>`: name collected up to `>` (unterminated or empty name raises);
    a numeric name must be group 0 (the pattern has no other groups), any
    other name raises.
  * `\0` plus up to two further octal digits: the character with that code.
  * `\1`..`\9` starting a run: three octal digits give the character with
    that code modulo 256; any other digit form is a decimal group reference,
    which raises because the pattern has no groups.
  * `\a \b \f \n \r \t \v \\`: the `ESCAPES` table.
  * any other `\c`: both characters kept literally. -/
def templEsc : List Char → Option (List TemplItem × List Char)
  | [] => none
  | 'g' :: rest2 =>
    match rest2 with
    | '<' :: rest3 =>
      match rest3.dropWhile (fun d => !(d == '>')) with
      | [] => none
      | _ :: rest4 =>
        let name := rest3.takeWhile (fun d => !(d == '>'))
        if name = [] then none
        else
          match pyInt name with
          | some v => if v = 0 then some ([.group0], rest4) else none
          | none => none
    | _ => none
  | '0' :: rest2 =>
    let ds := (rest2.takeWhile isOctDigitCh).take 2
    some ([.lit (Char.ofNat ((ds.foldl (fun a c => a * 8 + octVal c) 0) % 256))],
      rest2.drop ds.length)
  | d :: rest2 =>
    if d.isDigit then
      match rest2 with
      | d2 :: rest3 =>
        if d2.isDigit then
          if isOctDigitCh d && isOctDigitCh d2 then
            match rest3 with
            | d3 :: rest4 =>
              if isOctDigitCh d3 then
                some ([.lit (Char.ofNat
                  ((octVal d * 64 + octVal d2 * 8 + octVal d3) % 256))], rest4)
              else none
            | [] => none
          else none
        else none
      | [] => none
    else
      match ESCAPES d with
      | some c => some ([.lit c], rest2)
      | none => some ([.lit '\\', .lit d], rest2)

/-- Template parsing loop.  The fuel is initialized to the template's length;
every step consumes at least one character, so it never runs out. -/
def parse_template_go : Nat → List Char → Option (List TemplItem)
  | _, [] => some []
  | 0, _ :: _ => none
  | fuel + 1, c :: rest =>
    if c = '\\' then
      match templEsc rest with
      | none => none
      | some (items, rest2) =>
        (parse_template_go fuel rest2).map (fun tail => items ++ tail)
    else
      (parse_template_go fuel rest).map (fun tail => .lit c :: tail)

/-- Python 2.7 `sre_parse.parse_template` for the zero-group pattern
`re.escape(token)`: `none` models the parser raising (a trailing lone
backslash, a malformed or non-zero group reference), which aborts the program
at the `re.sub` call. -/
def parse_template (repl : List Char) : Option (List TemplItem) :=
  parse_template_go repl.length repl

/-- The text `re.sub` inserts for each match: the parsed template with group 0
replaced by the matched text — for the literal pattern `re.escape(token)`
every match is the token itself, so the insertion text is the same for every
occurrence.  `none` when template parsing raises. -/
def expand_template (token repl : List Char) : Option (List Char) :=
  (parse_template repl).map (fun items =>
    (items.map (fun it =>
      match it with
      | .lit c => [c]
      | .group0 => token)).flatten)

/-- The occurrence-rewriting core of `re.sub(match_regex, replacement, s, 1)`
(line 216), where `match_regex` is the zero-group literal pattern
`re.escape(token)` and the second argument is the insertion text the
replacement template expands to (see `expand_template`): replace the leftmost
occurrence of the literal token by that text.  The pattern is the escape of a
`\w+` match, hence non-empty at every call site. -/
def subLiteralFirst (pat repl : List Char) : List Char → List Char
  | [] => []
  | c :: cs =>
    if pat ≠ [] ∧ pat.isPrefixOf (c :: cs) = true then
      repl ++ (c :: cs).drop pat.length
    else
      c :: subLiteralFirst pat repl cs

/-- The occurrence-rewriting core of `re.sub(match_regex, replacement, s)`
(line 224), the second argument again being the expanded insertion text:
replace every (non-overlapping, left-to-right) occurrence of the literal token
in one pass. -/
def subLiteralAll (pat repl : List Char) (s : List Char) : List Char :=
  match s with
  | [] => []
  | c :: cs =>
    if h : pat ≠ [] ∧ pat.isPrefixOf (c :: cs) = true then
      repl ++ subLiteralAll pat repl ((c :: cs).drop pat.length)
    else
      c :: subLiteralAll pat repl cs
termination_by s.length
decreasing_by
  · have : pat.length ≥ 1 := by
      cases hp : pat with
      | nil => exact absurd hp h.1
      | cons a as => simp
    simp [List.length_drop]
    omega
  · simp

/-- Number of occurrences `re.sub` rewrites: non-overlapping, scanned left to
right, each match consuming `pat.length` characters. -/
def countOcc (pat : List Char) (s : List Char) : Nat :=
  match s with
  | [] => 0
  | c :: cs =>
    if h : pat ≠ [] ∧ pat.isPrefixOf (c :: cs) = true then
      1 + countOcc pat ((c :: cs).drop pat.length)
    else
      countOcc pat cs
termination_by s.length
decreasing_by
  · have : pat.length ≥ 1 := by
      cases hp : pat with
      | nil => exact absurd hp h.1
      | cons a as => simp
    simp [List.length_drop]
    omega
  · simp

/-- `handle_failed_check` (lines 181-235), as a function of the operator's
terminating choice.  `data` is `match_desc.get_string()`, `pos` is
`match_desc.get_ofs()`, so `get_prefix()` is `data.take pos` and
`get_remainder()` is `data.drop pos`.

  * (i) or default: fall through to `return (text, ofs + len(token))`.
  * (I): `ignores.add(token.lower())`, then the default return.
  * (r)/(R) with empty replacement: "(Not replaced.)", `break`, default
    return — note `ignores.add` is only reached for a non-empty replacement.
  * (r): add the lower-cased raw replacement to `ignores`, then `re.sub`
    expands the replacement template and substitutes the expansion for the
    first occurrence in the remainder; the resume offset adds
    `len(replacement)` — the raw typed text, not the expansion.  When the
    template is invalid, `re.sub` raises an `sre_constants.error` that nothing
    in the program catches: the run dies and no `(text, ofs)` is produced,
    modelled as `none`.
  * (R): same, substituting every occurrence in the remainder.
  * (a): `handle_add` mutates only the dictionaries (not text/ofs/ignores),
    then the default return; the dictionary add flow is outside the claims.  -/
def handle_failed_check (data : List Char) (pos : Nat) (token : List Char)
    (ignores : List (List Char)) (action : UserAction) : Option CheckResult :=
  match action with
  | .ignoreOnce => some ⟨data, pos + token.length, ignores⟩
  | .ignoreAll => some ⟨data, pos + token.length, ignores.insert (lowerStr token)⟩
  | .replaceOnce repl =>
    if repl = [] then some ⟨data, pos + token.length, ignores⟩
    else
      match expand_template token repl with
      | none => none
      | some ins =>
        some ⟨data.take pos ++ subLiteralFirst token ins (data.drop pos),
              pos + repl.length, ignores.insert (lowerStr repl)⟩
  | .replaceAllOcc repl =>
    if repl = [] then some ⟨data, pos + token.length, ignores⟩
    else
      match expand_template token repl with
      | none => none
      | some ins =>
        some ⟨data.take pos ++ subLiteralAll token ins (data.drop pos),
              pos + repl.length, ignores.insert (lowerStr repl)⟩
  | .addToDict => some ⟨data, pos + token.length, ignores⟩

/-- The escalation test of `spell_check_token` (lines 250-256).  The source
guard is `(token.lower not in ignores) and (hex_regex.match(token) is None)`;
`token.lower` is the bound method object, which is never equal to any string
in the set `ignores`, so the first conjunct is identically true and only the
hex test remains.  The subtoken filter is translated verbatim: note that it
tests `dicts.match(token, filename)` — the whole token — for each subtoken
`st`, never `st` itself. -/
def escalates (dicts : CorporaFile) (ext token : List Char)
    (ignores : List (List Char)) : Bool :=
  !hex_regex_match token &&
    !((decompose_token token).filter (fun st =>
        decide (st.length > LEN_THRESHOLD) &&
        !corporaMatch dicts token ext &&
        !ignores.contains st)).isEmpty

/-- `spell_check_token` (lines 238-259): if the token fails the check, defer to
`handle_failed_check` with the operator's choice; otherwise return the text
unchanged, resuming just after the token.  When the token does not escalate no
operator input is consumed and `action` is ignored; `none` propagates the
uncaught replacement-template error. -/
def spell_check_token (dicts : CorporaFile) (ext data : List Char) (pos : Nat)
    (token : List Char) (ignores : List (List Char)) (action : UserAction) :
    Option CheckResult :=
  if escalates dicts ext token ignores then
    handle_failed_check data pos token ignores action
  else some ⟨data, pos + token.length, ignores⟩

/-- `token_regex.search(data, pos)` (line 282), scanning the suffix: the
leftmost maximal run of word characters starting at or after the scan index.
Returns the absolute match offset and the matched token. -/
def searchWord : List Char → Nat → Option (Nat × List Char)
  | [], _ => none
  | c :: cs, i =>
    if isWordChar c then some (i, c :: cs.takeWhile isWordChar)
    else searchWord cs (i + 1)

theorem searchWord_facts :
    ∀ (s : List Char) (i m : Nat) (tok : List Char),
      searchWord s i = some (m, tok) →
      i ≤ m ∧ tok ≠ [] ∧ m + tok.length ≤ i + s.length := by
  intro s
  induction s with
  | nil => intro i m tok h; simp [searchWord] at h
  | cons c cs ih =>
    intro i m tok h
    by_cases hw : isWordChar c = true
    · simp [searchWord, hw] at h
      obtain ⟨hm, htok⟩ := h
      subst hm; subst htok
      refine ⟨Nat.le_refl _, by simp, ?_⟩
      have := (List.takeWhile_sublist (p := isWordChar) (l := cs)).length_le
      simp
      omega
    · simp [searchWord, hw] at h
      obtain ⟨h1, h2, h3⟩ := ih (i + 1) m tok h
      exact ⟨by omega, h2, by simp; omega⟩

/-- The scan loop of `spell_check_file` (lines 279-285): repeatedly find the
next token at or after `pos` and run `spell_check_token`, continuing from the
returned `(data, pos)`.  Operator input is modelled by the finite list
`actions` of remaining responses, one consumed per escalation; when it is
exhausted the operator is modelled as answering (i)gnore, which is exactly the
default branch of `handle_failed_check` (text unchanged, resume after the
token).  `none` is an aborted run: an invalid replacement template raised out
of the loop, so no final buffer exists. -/
def scan_loop (dicts : CorporaFile) (ext : List Char) (data : List Char)
    (pos : Nat) (ignores : List (List Char)) (actions : List UserAction) :
    Option (List Char) :=
  match hs : searchWord (data.drop pos) pos with
  | none => some data
  | some (mpos, token) =>
    if escalates dicts ext token ignores then
      match actions with
      | [] => scan_loop dicts ext data (mpos + token.length) ignores []
      | a :: rest =>
        match spell_check_token dicts ext data mpos token ignores a with
        | none => none
        | some r => scan_loop dicts ext r.text r.ofs r.ignores rest
    else
      scan_loop dicts ext data (mpos + token.length) ignores actions
termination_by (actions.length, data.length - pos)
decreasing_by
  · apply Prod.Lex.right
    have hf := searchWord_facts (data.drop pos) pos mpos token hs
    have hne : data.drop pos ≠ [] := by
      intro he; rw [he] at hs; simp [searchWord] at hs
    have hlt : pos < data.length := by
      by_contra hle
      exact hne (List.drop_of_length_le (by omega))
    have hl : (data.drop pos).length = data.length - pos := by simp
    have htok : 1 ≤ token.length := by
      cases token with
      | nil => exact absurd rfl hf.2.1
      | cons x xs => simp
    omega
  · apply Prod.Lex.left
    simp
  · apply Prod.Lex.right
    have hf := searchWord_facts (data.drop pos) pos mpos token hs
    have hne : data.drop pos ≠ [] := by
      intro he; rw [he] at hs; simp [searchWord] at hs
    have hlt : pos < data.length := by
      by_contra hle
      exact hne (List.drop_of_length_le (by omega))
    have hl : (data.drop pos).length = data.length - pos := by simp
    have htok : 1 ≤ token.length := by
      cases token with
      | nil => exact absurd rfl hf.2.1
      | cons x xs => simp
    omega

/-- The final buffer of `spell_check_file` together with its write decision. -/
structure FileResult where
  text : List Char
  written : Bool
deriving DecidableEq

/-- `spell_check_file` (lines 262-293) after a successful read of `source`:
scan from offset 0 with the session ignore set, then write the buffer back if
and only if `data != source_text` (line 288).  Line 288 is reached only when
the scan completes; when the run aborts mid-scan nothing is written (`none`). -/
def spell_check_file (dicts : CorporaFile) (ext source : List Char)
    (actions : List UserAction) (ignores : List (List Char)) :
    Option FileResult :=
  match scan_loop dicts ext source 0 ignores actions with
  | none => none
  | some final => some ⟨final, final != source⟩

/-- `self._data.split('\n')` (line 98): cut at every newline character,
keeping empty pieces. -/
def splitNL : List Char → List (List Char)
  | [] => [[]]
  | c :: cs =>
    if c = '\n' then [] :: splitNL cs
    else
      match splitNL cs with
      | [] => [[c]]
      | p :: r => (c :: p) :: r

/-- The `offsets` loop (lines 101-106): `offsets[0] = 0` and
`offsets[i] = offsets[i-1] + len(lines[i-1]) + 1`; the starting byte offset of
every line, accumulated from `acc`. -/
def lineOffsets (acc : Nat) : List (List Char) → List Nat
  | [] => []
  | l :: ls => acc :: lineOffsets (acc + l.length + 1) ls

/-- The line-number loop (lines 109-112): the first enumeration index `i` with
`offsets[i] > pos`, or `none` when no offset exceeds `pos`. -/
def firstExceedIdx (pos : Nat) : Nat → List Nat → Option Nat
  | _, [] => none
  | i, o :: os => if pos < o then some i else firstExceedIdx pos (i + 1) os

/-- `get_line_num` / the `_line_num` computation (lines 108-114): the first
index whose line offset exceeds the match offset, defaulting to `len(lines)`. -/
def matchLineNum (data : List Char) (pos : Nat) : Nat :=
  let lines := splitNL data
  match firstExceedIdx pos 0 (lineOffsets 0 lines) with
  | some i => i
  | none => lines.length

/-- Membership in the class stripped by `line.strip('\r\n')` (line 117). -/
def isCRLF (c : Char) : Bool := c == '\r' || c == '\n'

/-- Python `line.strip('\r\n')`: drop every leading and trailing character
belonging to the set `{CR, LF}`. -/
def stripCR (l : List Char) : List Char :=
  ((l.dropWhile isCRLF).reverse.dropWhile isCRLF).reverse

/-- Python `enumerate(lines)` starting at index `k`. -/
def enumLines : Nat → List (List Char) → List (Nat × List Char)
  | _, [] => []
  | k, l :: ls => (k, l) :: enumLines (k + 1) ls

/-- `MatchDescriptor.get_context` (lines 91-119): the pairs
`(i+1, line.strip('\r\n'))` for the enumerated lines whose value
`i + 1 - line_num` lies in `range(-CONTEXT_SIZE/2, CONTEXT_SIZE/2 + 1)`
(Python 2 floor division: the band is `[-2, 3)` over the integers). -/
def get_context (data : List Char) (pos : Nat) : List (Nat × List Char) :=
  let lines := splitNL data
  let ln := matchLineNum data pos
  ((enumLines 0 lines).filter (fun q =>
      decide ((-(CONTEXT_SIZE : Int)) / 2 ≤ (q.1 : Int) + 1 - (ln : Int)) &&
      decide ((q.1 : Int) + 1 - (ln : Int) < (CONTEXT_SIZE : Int) / 2 + 1))).map
    (fun q => (q.1 + 1, stripCR q.2))

theorem prefOf_append_drop :
    ∀ (t s : List Char), t.isPrefixOf s = true →
      t ++ s.drop t.length = s ∧ t.length ≤ s.length := by
  intro t
  induction t with
  | nil => intro s _; simp
  | cons a as ih =>
    intro s h
    cases s with
    | nil => simp [List.isPrefixOf] at h
    | cons b bs =>
      simp [List.isPrefixOf] at h
      obtain ⟨hab, hrec⟩ := h
      obtain ⟨h1, h2⟩ := ih bs (by simpa using hrec)
      subst hab
      constructor
      · simpa using h1
      · simpa using h2

theorem subFirst_at_match (pat repl s : List Char) (hpat : pat ≠ [])
    (hp : pat.isPrefixOf s = true) :
    subLiteralFirst pat repl s = repl ++ s.drop pat.length := by
  cases s with
  | nil => cases pat with
    | nil => exact absurd rfl hpat
    | cons a as => simp [List.isPrefixOf] at hp
  | cons c cs => simp [subLiteralFirst, hpat, hp]

theorem subAll_cons_pos {pat : List Char} (repl : List Char) {c : Char}
    {cs : List Char} (hpat : pat ≠ []) (hp : pat.isPrefixOf (c :: cs) = true) :
    subLiteralAll pat repl (c :: cs) =
      repl ++ subLiteralAll pat repl ((c :: cs).drop pat.length) := by
  rw [subLiteralAll]
  rw [dif_pos ⟨hpat, hp⟩]

theorem subAll_cons_neg {pat : List Char} (repl : List Char) {c : Char}
    {cs : List Char} (hp : ¬(pat ≠ [] ∧ pat.isPrefixOf (c :: cs) = true)) :
    subLiteralAll pat repl (c :: cs) = c :: subLiteralAll pat repl cs := by
  rw [subLiteralAll]
  rw [dif_neg hp]

theorem countOcc_cons_pos {pat : List Char} {c : Char} {cs : List Char}
    (hpat : pat ≠ []) (hp : pat.isPrefixOf (c :: cs) = true) :
    countOcc pat (c :: cs) = 1 + countOcc pat ((c :: cs).drop pat.length) := by
  rw [countOcc]
  rw [dif_pos ⟨hpat, hp⟩]

theorem countOcc_cons_neg {pat : List Char} {c : Char} {cs : List Char}
    (hp : ¬(pat ≠ [] ∧ pat.isPrefixOf (c :: cs) = true)) :
    countOcc pat (c :: cs) = countOcc pat cs := by
  rw [countOcc]
  rw [dif_neg hp]

/-- Length accounting for a full one-pass substitution: each of the
`countOcc` occurrences trades `pat.length` characters for `repl.length`. -/
theorem subAll_len (pat repl : List Char) (hpat : pat ≠ []) :
    ∀ (s : List Char),
      ((subLiteralAll pat repl s).length : Int) =
        (s.length : Int) +
          (countOcc pat s : Int) * ((repl.length : Int) - (pat.length : Int)) := by
  have main : ∀ (n : Nat) (s : List Char), s.length ≤ n →
      ((subLiteralAll pat repl s).length : Int) =
        (s.length : Int) +
          (countOcc pat s : Int) * ((repl.length : Int) - (pat.length : Int)) := by
    intro n
    induction n with
    | zero =>
      intro s hs
      have hz : s = [] := List.length_eq_zero.mp (by omega)
      subst hz
      simp [subLiteralAll, countOcc]
    | succ n ih =>
      intro s hs
      match s with
      | [] => simp [subLiteralAll, countOcc]
      | c :: cs =>
        by_cases hp : pat.isPrefixOf (c :: cs) = true
        · have hle : pat.length ≤ (c :: cs).length :=
            (prefOf_append_drop pat (c :: cs) hp).2
          have hpl : 1 ≤ pat.length := by
            cases pat with
            | nil => exact absurd rfl hpat
            | cons a as => simp
          rw [subAll_cons_pos repl hpat hp, countOcc_cons_pos hpat hp]
          simp only [List.length_append, List.length_cons]
          push_cast
          rw [ih ((c :: cs).drop pat.length) (by simp at hs ⊢; omega)]
          rw [List.length_drop]
          push_cast [Nat.cast_sub hle]
          simp only [List.length_cons]
          push_cast
          ring
        · have hcond : ¬(pat ≠ [] ∧ pat.isPrefixOf (c :: cs) = true) :=
            fun hc => hp hc.2
          rw [subAll_cons_neg repl hcond, countOcc_cons_neg hcond]
          simp only [List.length_cons]
          push_cast
          rw [ih cs (by simp at hs; omega)]
          ring
  intro s
  exact main s.length s (Nat.le_refl _)

theorem countOcc_pos_at_match {pat : List Char} {s : List Char}
    (hpat : pat ≠ []) (hp : pat.isPrefixOf s = true) : 1 ≤ countOcc pat s := by
  cases s with
  | nil => cases pat with
    | nil => exact absurd rfl hpat
    | cons a as => simp [List.isPrefixOf] at hp
  | cons c cs =>
    rw [countOcc_cons_pos hpat hp]
    omega

theorem drop_pos_lt_length {data token : List Char} {pos : Nat}
    (htok : token ≠ []) (hmatch : token.isPrefixOf (data.drop pos) = true) :
    pos < data.length := by
  by_contra hle
  have hnil : data.drop pos = [] := List.drop_of_length_le (by omega)
  rw [hnil] at hmatch
  cases token with
  | nil => exact absurd rfl htok
  | cons a as => simp [List.isPrefixOf] at hmatch

theorem parse_go_no_bs :
    ∀ (fuel : Nat) (s : List Char), s.length ≤ fuel → '\\' ∉ s →
      parse_template_go fuel s = some (s.map TemplItem.lit) := by
  intro fuel
  induction fuel with
  | zero =>
    intro s hs _
    cases s with
    | nil => simp [parse_template_go]
    | cons c rest => simp at hs
  | succ n ih =>
    intro s hs hbs
    cases s with
    | nil => simp [parse_template_go]
    | cons c rest =>
      have hc : ¬c = '\\' := by
        intro h
        exact hbs (h ▸ List.mem_cons_self c rest)
      simp only [parse_template_go, if_neg hc]
      rw [ih rest (by simp at hs; omega) (fun h => hbs (List.mem_cons_of_mem c h))]
      simp

theorem flatten_singletons :
    ∀ s : List Char, (s.map (fun c => [c])).flatten = s := by
  intro s
  induction s with
  | nil => simp
  | cons c rest ih => simp [ih]

/-- A replacement containing no backslash is a template with no escapes at
all: `re.sub` inserts it verbatim. -/
theorem expand_no_bs (token repl : List Char) (hbs : '\\' ∉ repl) :
    expand_template token repl = some repl := by
  unfold expand_template parse_template
  rw [parse_go_no_bs repl.length repl (Nat.le_refl _) hbs]
  simp only [Option.map_some', Option.some.injEq, List.map_map]
  have : ((fun it =>
      match it with
      | TemplItem.lit c => [c]
      | TemplItem.group0 => token) ∘ TemplItem.lit) = fun c => [c] := rfl
  rw [this]
  exact flatten_singletons repl

/-- C3 (amended): when the operator chooses replace-once with non-empty
replacement text containing no backslash (so the `re.sub` template is the
replacement verbatim), exactly the first occurrence of the exact token text at
or after the match offset is substituted by the replacement — the result is
the untouched prefix, then the replacement, then the untouched rest of the
buffer beyond the matched token — the lower-cased replacement is added to the
session ignore set, and the resume offset is the prefix length (the match
offset) plus the replacement length. -/
theorem C3_replace_once (data : List Char) (pos : Nat) (token repl : List Char)
    (ignores : List (List Char)) (hrepl : repl ≠ []) (htok : token ≠ [])
    (hbs : '\\' ∉ repl) (hmatch : token.isPrefixOf (data.drop pos) = true) :
    handle_failed_check data pos token ignores (.replaceOnce repl) =
      some ⟨data.take pos ++ repl ++ data.drop (pos + token.length),
            pos + repl.length, ignores.insert (lowerStr repl)⟩ ∧
    (data.take pos).length = pos := by
  have hpos : pos < data.length := drop_pos_lt_length htok hmatch
  constructor
  · simp only [handle_failed_check, if_neg hrepl, expand_no_bs token repl hbs]
    rw [subFirst_at_match token repl (data.drop pos) htok hmatch]
    rw [List.drop_drop]
    rw [← List.append_assoc]
  · rw [List.length_take]
    omega

/-- C3 counterexample to the original claim: the replacement backslash-n is a
valid template that expands to a newline character, so the code inserts a
newline — not the replacement text — while still adding the raw replacement to
the ignore set and advancing by the raw replacement's length. -/
theorem C3_counterexample :
    handle_failed_check ['a', 'b'] 0 ['a'] [] (.replaceOnce ['\\', 'n']) =
      some ⟨['\n', 'b'], 0 + (['\\', 'n'] : List Char).length, [['\\', 'n']]⟩ ∧
    (['\n', 'b'] : List Char) ≠
      ['a', 'b'].take 0 ++ ['\\', 'n'] ++
        ['a', 'b'].drop (0 + (['a'] : List Char).length) := by
  decide

/-- Witness for C3 at a concrete input. -/
theorem C3_witness :
    handle_failed_check ['a', 'b', 'c'] 1 ['b'] [] (.replaceOnce ['x', 'y']) =
      some ⟨['a', 'b', 'c'].take 1 ++ ['x', 'y'] ++
              ['a', 'b', 'c'].drop (1 + ['b'].length),
            1 + ['x', 'y'].length,
            List.insert (lowerStr ['x', 'y']) []⟩ ∧
    (['a', 'b', 'c'].take 1).length = 1 :=
  C3_replace_once ['a', 'b', 'c'] 1 ['b'] ['x', 'y'] []
    (by decide) (by decide) (by decide) (by decide)

/-- C4 (amended): when the operator chooses replace-all with non-empty
replacement text containing no backslash (so the `re.sub` template is the
replacement verbatim), every occurrence of the exact token text at or after
the match offset is substituted in one pass (the buffer becomes the untouched
prefix followed by the one-pass substitution of the tail), the buffer length
changes by occurrences times the replacement/original length difference with
at least one occurrence rewritten, and the resume offset is the match offset
plus the replacement length. -/
theorem C4_replace_all (data : List Char) (pos : Nat) (token repl : List Char)
    (ignores : List (List Char)) (hrepl : repl ≠ []) (htok : token ≠ [])
    (hbs : '\\' ∉ repl) (hmatch : token.isPrefixOf (data.drop pos) = true) :
    handle_failed_check data pos token ignores (.replaceAllOcc repl) =
      some ⟨data.take pos ++ subLiteralAll token repl (data.drop pos),
            pos + repl.length, ignores.insert (lowerStr repl)⟩ ∧
    (((data.take pos ++ subLiteralAll token repl (data.drop pos)).length : Int) =
        (data.length : Int) +
          (countOcc token (data.drop pos) : Int) *
            ((repl.length : Int) - (token.length : Int))) ∧
    1 ≤ countOcc token (data.drop pos) := by
  have hpos : pos < data.length := drop_pos_lt_length htok hmatch
  refine ⟨?_, ?_, countOcc_pos_at_match htok hmatch⟩
  · simp only [handle_failed_check, if_neg hrepl, expand_no_bs token repl hbs]
  · simp only [List.length_append]
    push_cast
    rw [subAll_len token repl htok (data.drop pos)]
    rw [List.length_take, List.length_drop]
    have hmin : min pos data.length = pos := by omega
    rw [hmin]
    push_cast [Nat.cast_sub (by omega : pos ≤ data.length)]
    ring

/-- C4 counterexample to the original claim: the replacement backslash-n is a
valid two-character template that expands to the single newline character, so
on a buffer with two occurrences of the token the rewritten buffer keeps its
length — whereas the claimed law predicts growth by
occurrences x (len(replacement) - len(original)) = 2 x (2 - 1). -/
theorem C4_counterexample :
    handle_failed_check ['a', 'a'] 0 ['a'] [] (.replaceAllOcc ['\\', 'n']) =
      some ⟨['\n', '\n'], 0 + (['\\', 'n'] : List Char).length, [['\\', 'n']]⟩ ∧
    countOcc ['a'] ((['a', 'a'] : List Char).drop 0) = 2 ∧
    ¬(((['\n', '\n'] : List Char).length : Int) =
        ((['a', 'a'] : List Char).length : Int) +
          (countOcc ['a'] ((['a', 'a'] : List Char).drop 0) : Int) *
            (((['\\', 'n'] : List Char).length : Int) -
              ((['a'] : List Char).length : Int))) := by
  have hd1 : (['a', 'a'] : List Char).drop (['a'] : List Char).length = ['a'] := rfl
  have hd2 : (['a'] : List Char).drop (['a'] : List Char).length = [] := rfl
  have hsub : subLiteralAll ['a'] ['\n'] ['a', 'a'] = ['\n', '\n'] := by
    rw [subAll_cons_pos ['\n'] (by decide) (by decide), hd1,
        subAll_cons_pos ['\n'] (by decide) (by decide), hd2]
    simp [subLiteralAll]
  have hcnt : countOcc ['a'] ['a', 'a'] = 2 := by
    rw [countOcc_cons_pos (by decide) (by decide), hd1,
        countOcc_cons_pos (by decide) (by decide), hd2]
    simp [countOcc]
  have hexp : expand_template ['a'] ['\\', 'n'] = some ['\n'] := by decide
  refine ⟨?_, by simpa using hcnt, ?_⟩
  · have hne : ¬(['\\', 'n'] : List Char) = [] := by decide
    simp only [handle_failed_check, if_neg hne, hexp]
    simp [hsub]
    decide
  · have hdz : (['a', 'a'] : List Char).drop 0 = ['a', 'a'] := rfl
    rw [hdz, hcnt]
    decide

/-- Witness for C4 at a concrete input. -/
theorem C4_witness :
    handle_failed_check ['a', 'b', 'a'] 0 ['a'] [] (.replaceAllOcc ['c', 'd']) =
      some ⟨['a', 'b', 'a'].take 0 ++
              subLiteralAll ['a'] ['c', 'd'] (['a', 'b', 'a'].drop 0),
            0 + ['c', 'd'].length,
            List.insert (lowerStr ['c', 'd']) []⟩ ∧
    (((['a', 'b', 'a'].take 0 ++
          subLiteralAll ['a'] ['c', 'd'] (['a', 'b', 'a'].drop 0)).length : Int) =
        ((['a', 'b', 'a'] : List Char).length : Int) +
          (countOcc ['a'] (['a', 'b', 'a'].drop 0) : Int) *
            (((['c', 'd'] : List Char).length : Int) -
              ((['a'] : List Char).length : Int))) ∧
    1 ≤ countOcc ['a'] (['a', 'b', 'a'].drop 0) :=
  C4_replace_all ['a', 'b', 'a'] 0 ['a'] ['c', 'd'] []
    (by decide) (by decide) (by decide) (by decide)

/-- C9: at either replace prompt, empty replacement input cancels the
replacement and behaves as ignore-once: buffer unchanged, ignore set
unchanged, resume offset equal to the match offset plus the token length. -/
theorem C9_empty_replacement (data : List Char) (pos : Nat) (token : List Char)
    (ignores : List (List Char)) :
    handle_failed_check data pos token ignores (.replaceOnce []) =
      some ⟨data, pos + token.length, ignores⟩ ∧
    handle_failed_check data pos token ignores (.replaceAllOcc []) =
      some ⟨data, pos + token.length, ignores⟩ :=
  ⟨rfl, rfl⟩

/-- C6: a token matching the hexadecimal-literal pattern (`0x` followed by hex
digits, anchored like `re.match`) never escalates, regardless of the
dictionary and ignore-set contents, and `spell_check_token` returns the buffer
unchanged with resume offset equal to the match offset plus the token
length. -/
theorem C6_hex_exempt (dicts : CorporaFile) (ext data : List Char) (pos : Nat)
    (token : List Char) (ignores : List (List Char)) (action : UserAction)
    (hhex : hex_regex_match token = true) :
    escalates dicts ext token ignores = false ∧
    spell_check_token dicts ext data pos token ignores action =
      some ⟨data, pos + token.length, ignores⟩ := by
  have hesc : escalates dicts ext token ignores = false := by
    simp [escalates, hhex]
  exact ⟨hesc, by simp [spell_check_token, hesc]⟩

/-- Witness for C6 at a concrete input: token `0x1F`, with non-empty
dictionary tiers and a non-empty ignore set. -/
theorem C6_witness :
    escalates ⟨[['z']], [['q']], fun _ => [['w']]⟩ ['c']
        ['0', 'x', '1', 'F'] [['x']] = false ∧
    spell_check_token ⟨[['z']], [['q']], fun _ => [['w']]⟩ ['c'] ['a', 'b'] 0
        ['0', 'x', '1', 'F'] [['x']] .ignoreAll =
      some ⟨['a', 'b'], 0 + (['0', 'x', '1', 'F'] : List Char).length, [['x']]⟩ :=
  C6_hex_exempt ⟨[['z']], [['q']], fun _ => [['w']]⟩ ['c'] ['a', 'b'] 0
    ['0', 'x', '1', 'F'] [['x']] .ignoreAll (by decide)

/-- A side condition of claim C10: the operator actions considered are the
returning ones with, for a replacement, non-empty replacement text. -/
def replNonEmpty : UserAction → Prop
  | .replaceOnce r => r ≠ []
  | .replaceAllOcc r => r ≠ []
  | _ => True

instance : (a : UserAction) → Decidable (replNonEmpty a)
  | .replaceOnce r => inferInstanceAs (Decidable (r ≠ []))
  | .replaceAllOcc r => inferInstanceAs (Decidable (r ≠ []))
  | .ignoreOnce => inferInstanceAs (Decidable True)
  | .ignoreAll => inferInstanceAs (Decidable True)
  | .addToDict => inferInstanceAs (Decidable True)

/-- The other side condition of claim C10 ("every operator action that
returns"): a replacement's template must parse, otherwise `re.sub` raises and
the action does not return at all. -/
def replValidTemplate : UserAction → Prop
  | .replaceOnce r => (parse_template r).isSome = true
  | .replaceAllOcc r => (parse_template r).isSome = true
  | _ => True

instance : (a : UserAction) → Decidable (replValidTemplate a)
  | .replaceOnce r => inferInstanceAs (Decidable ((parse_template r).isSome = true))
  | .replaceAllOcc r => inferInstanceAs (Decidable ((parse_template r).isSome = true))
  | .ignoreOnce => inferInstanceAs (Decidable True)
  | .ignoreAll => inferInstanceAs (Decidable True)
  | .addToDict => inferInstanceAs (Decidable True)

/-- C10: for a non-empty token and any returning operator action (non-empty
replacement text whose template is valid, where applicable),
`spell_check_token` returns a result whose resume offset strictly exceeds the
match offset — it is the match offset plus the token length when the buffer is
unchanged, or plus the raw replacement length after a replacement — the fact
from which the `scan_loop` recursion of `spell_check_file` strictly advances
and terminates. -/
theorem C10_strict_advance (dicts : CorporaFile) (ext data : List Char)
    (pos : Nat) (token : List Char) (ignores : List (List Char))
    (action : UserAction) (htok : token ≠ []) (hact : replNonEmpty action)
    (hval : replValidTemplate action) :
    ∃ res, spell_check_token dicts ext data pos token ignores action =
        some res ∧
      pos < res.ofs ∧
      (res.ofs = pos + token.length ∨
        ∃ r, (action = .replaceOnce r ∨ action = .replaceAllOcc r) ∧
          res.ofs = pos + r.length) := by
  have htl : 1 ≤ token.length := by
    cases token with
    | nil => exact absurd rfl htok
    | cons a as => simp
  by_cases hesc : escalates dicts ext token ignores = true
  · simp only [spell_check_token, if_pos hesc]
    cases action with
    | ignoreOnce =>
      exact ⟨⟨data, pos + token.length, ignores⟩, rfl,
        by show pos < pos + token.length; omega, Or.inl rfl⟩
    | ignoreAll =>
      exact ⟨⟨data, pos + token.length, ignores.insert (lowerStr token)⟩,
        rfl, by show pos < pos + token.length; omega, Or.inl rfl⟩
    | addToDict =>
      exact ⟨⟨data, pos + token.length, ignores⟩, rfl,
        by show pos < pos + token.length; omega, Or.inl rfl⟩
    | replaceOnce r =>
      have hr : r ≠ [] := hact
      have hrl : 1 ≤ r.length := by
        cases r with
        | nil => exact absurd rfl hr
        | cons a as => simp
      obtain ⟨items, hitems⟩ := Option.isSome_iff_exists.mp hval
      have hexp : expand_template token r =
          some ((items.map (fun it =>
            match it with
            | TemplItem.lit c => [c]
            | TemplItem.group0 => token)).flatten) := by
        unfold expand_template
        rw [hitems]
        rfl
      refine ⟨⟨data.take pos ++
          subLiteralFirst token ((items.map (fun it =>
            match it with
            | TemplItem.lit c => [c]
            | TemplItem.group0 => token)).flatten) (data.drop pos),
          pos + r.length, ignores.insert (lowerStr r)⟩, ?_,
        by show pos < pos + r.length; omega, Or.inr ⟨r, Or.inl rfl, rfl⟩⟩
      simp only [handle_failed_check, if_neg hr, hexp]
    | replaceAllOcc r =>
      have hr : r ≠ [] := hact
      have hrl : 1 ≤ r.length := by
        cases r with
        | nil => exact absurd rfl hr
        | cons a as => simp
      obtain ⟨items, hitems⟩ := Option.isSome_iff_exists.mp hval
      have hexp : expand_template token r =
          some ((items.map (fun it =>
            match it with
            | TemplItem.lit c => [c]
            | TemplItem.group0 => token)).flatten) := by
        unfold expand_template
        rw [hitems]
        rfl
      refine ⟨⟨data.take pos ++
          subLiteralAll token ((items.map (fun it =>
            match it with
            | TemplItem.lit c => [c]
            | TemplItem.group0 => token)).flatten) (data.drop pos),
          pos + r.length, ignores.insert (lowerStr r)⟩, ?_,
        by show pos < pos + r.length; omega, Or.inr ⟨r, Or.inr rfl, rfl⟩⟩
      simp only [handle_failed_check, if_neg hr, hexp]
  · simp only [spell_check_token, if_neg hesc]
    exact ⟨⟨data, pos + token.length, ignores⟩, rfl,
      by show pos < pos + token.length; omega, Or.inl rfl⟩

/-- Witness for C10 at a concrete input: an escalating token replaced once. -/
theorem C10_witness :
    ∃ res, spell_check_token ⟨[], [], fun _ => []⟩ [] ['w', 'x', 'y', 'z'] 0
        ['w', 'x', 'y', 'z'] [] (.replaceOnce ['q']) = some res ∧
      0 < res.ofs ∧
      (res.ofs = 0 + (['w', 'x', 'y', 'z'] : List Char).length ∨
        ∃ r, (UserAction.replaceOnce ['q'] = .replaceOnce r ∨
              UserAction.replaceOnce ['q'] = .replaceAllOcc r) ∧
          res.ofs = 0 + r.length) :=
  C10_strict_advance ⟨[], [], fun _ => []⟩ [] ['w', 'x', 'y', 'z'] 0
    ['w', 'x', 'y', 'z'] [] (.replaceOnce ['q'])
    (by decide) (by decide) (by decide)

/-- C8: whenever the scan completes (the write decision at line 288 is reached
at all), `spell_check_file` writes the buffer back to disk if and only if the
final buffer after scanning all tokens differs from the original bytes; a file
whose final buffer equals the original is never rewritten. -/
theorem C8_write_iff_changed (dicts : CorporaFile) (ext source : List Char)
    (actions : List UserAction) (ignores : List (List Char)) :
    ∀ res, spell_check_file dicts ext source actions ignores = some res →
      (res.written = true ↔ res.text ≠ source) := by
  intro res h
  simp only [spell_check_file] at h
  rcases hscan : scan_loop dicts ext source 0 ignores actions with _ | final
  · rw [hscan] at h
    simp at h
  · rw [hscan] at h
    simp only [Option.some.injEq] at h
    subst h
    simp

/-- Witness for C8 at a concrete input: the empty buffer scans to itself and
is not written. -/
theorem C8_witness :
    (⟨[], false⟩ : FileResult).written = true ↔
      (⟨[], false⟩ : FileResult).text ≠ ([] : List Char) :=
  C8_write_iff_changed ⟨[], [], fun _ => []⟩ [] [] [] [] ⟨[], false⟩
    (by simp [spell_check_file, scan_loop, searchWord])

/-- C1: behavior of the code at the failing input of claim C1.  With the
natural-language tier containing exactly the words hello and world, the other
tiers empty, and an empty session ignore set, the token helloWorld decomposes
into the sub-words hello and world — each of length greater than the threshold
and each found in tier 1 — yet `spell_check_token` escalates, because the
sub-token filter tests the whole token (`dicts.match(token, filename)`)
against the dictionaries rather than the sub-word. -/
theorem C1_code_behavior :
    escalates ⟨[['h', 'e', 'l', 'l', 'o'], ['w', 'o', 'r', 'l', 'd']], [],
        fun _ => []⟩ [] ['h', 'e', 'l', 'l', 'o', 'W', 'o', 'r', 'l', 'd'] [] =
      true ∧
    decompose_token ['h', 'e', 'l', 'l', 'o', 'W', 'o', 'r', 'l', 'd'] =
      [['h', 'e', 'l', 'l', 'o'], ['w', 'o', 'r', 'l', 'd']] ∧
    LEN_THRESHOLD < (['h', 'e', 'l', 'l', 'o'] : List Char).length ∧
    LEN_THRESHOLD < (['w', 'o', 'r', 'l', 'd'] : List Char).length ∧
    corporaMatch ⟨[['h', 'e', 'l', 'l', 'o'], ['w', 'o', 'r', 'l', 'd']], [],
        fun _ => []⟩ ['h', 'e', 'l', 'l', 'o'] [] = true ∧
    corporaMatch ⟨[['h', 'e', 'l', 'l', 'o'], ['w', 'o', 'r', 'l', 'd']], [],
        fun _ => []⟩ ['w', 'o', 'r', 'l', 'd'] [] = true := by
  decide

/-- C5: behavior of the code at the failing input of claim C5.  After the
operator chooses ignore-all for the token helloWorld (which adds the
lower-cased token to the session ignore set and leaves the buffer unchanged),
a subsequent occurrence of the very same token escalates again: the
whole-token ignore test of the source compares the bound method `token.lower`
— never a member of a set of strings — and the sub-words hello and world are
not themselves in the ignore set. -/
theorem C5_code_behavior :
    handle_failed_check ['h', 'e', 'l', 'l', 'o', 'W', 'o', 'r', 'l', 'd'] 0
        ['h', 'e', 'l', 'l', 'o', 'W', 'o', 'r', 'l', 'd'] [] .ignoreAll =
      some ⟨['h', 'e', 'l', 'l', 'o', 'W', 'o', 'r', 'l', 'd'], 10,
            [['h', 'e', 'l', 'l', 'o', 'w', 'o', 'r', 'l', 'd']]⟩ ∧
    escalates ⟨[], [], fun _ => []⟩ []
        ['h', 'e', 'l', 'l', 'o', 'W', 'o', 'r', 'l', 'd']
        [['h', 'e', 'l', 'l', 'o', 'w', 'o', 'r', 'l', 'd']] = true := by
  decide

/-- The decomposition described by claim C2: split on underscore/digit runs,
then apply the all-caps override per resulting fragment — a fragment that is
entirely upper-case is returned whole, and only fragments that are not all
upper-case are camel-split. -/
def decomposePerFragmentClaim (token : List Char) : List (List Char) :=
  let us_parts := splitRuns isUsChar token
  let subtokens := (us_parts.map (fun frag =>
      if pyIsUpper frag then [frag] else camelSplit frag)).flatten
  (subtokens.filter (fun st => !st.isEmpty)).map lowerStr

/-- The decomposition described by the amended claim: the all-caps override is
evaluated once, on the whole token with its underscores and digits removed; if
that string is entirely upper-case every fragment is returned whole, and
otherwise every fragment is camel-split. -/
def decomposeGlobalOverride (token : List Char) : List (List Char) :=
  let stripped := token.filter (fun c => !isUsChar c)
  let us_parts := splitRuns isUsChar token
  let subtokens :=
    if pyIsUpper stripped then us_parts
    else (us_parts.map camelSplit).flatten
  (subtokens.filter (fun st => !st.isEmpty)).map lowerStr

theorem splitRuns_ne_nil (p : Char → Bool) : ∀ s : List Char, splitRuns p s ≠ [] := by
  intro s
  induction s with
  | nil => simp [splitRuns]
  | cons c cs ih =>
    simp only [splitRuns]
    by_cases hc : p c = true
    · simp only [if_pos hc]
      cases cs with
      | nil => simp
      | cons d ds =>
        by_cases hd : p d = true
        · simpa [hd] using ih
        · simp [hd]
    · simp only [if_neg hc]
      rcases hr : splitRuns p cs with _ | ⟨piece, rest⟩
      · exact absurd hr ih
      · simp [hr]

/-- Concatenating the pieces of the underscore/digit split recovers exactly
the token with its underscore/digit characters removed: the `isupper` test of
line 149 is a test on the whole token stripped of separators. -/
theorem flatten_splitRuns (p : Char → Bool) :
    ∀ s : List Char, (splitRuns p s).flatten = s.filter (fun c => !p c) := by
  intro s
  induction s with
  | nil => simp [splitRuns]
  | cons c cs ih =>
    simp only [splitRuns]
    by_cases hc : p c = true
    · simp only [if_pos hc]
      have hfc : (c :: cs).filter (fun c => !p c) = cs.filter (fun c => !p c) := by
        simp [List.filter_cons, hc]
      rw [hfc]
      cases cs with
      | nil => simp [splitRuns]
      | cons d ds =>
        by_cases hd : p d = true
        · simpa [hd] using ih
        · simpa [hd] using ih
    · simp only [if_neg hc]
      rcases hr : splitRuns p cs with _ | ⟨piece, rest⟩
      · exact absurd hr (splitRuns_ne_nil p cs)
      · rw [hr] at ih
        simp only [List.flatten_cons] at ih
        simp [hr, List.filter_cons, hc, ← ih]

/-- C2 counterexample: on the token `FOO_barBaz` the code camel-splits the
all-caps fragment `FOO` into single letters (because the override is tested
on the concatenation `FOObarBaz`, which is not all upper-case), whereas the
per-fragment override of the claim would keep `foo` whole. -/
theorem C2_counterexample :
    decompose_token ['F', 'O', 'O', '_', 'b', 'a', 'r', 'B', 'a', 'z'] =
      [['f'], ['o'], ['o'], ['b', 'a', 'r'], ['b', 'a', 'z']] ∧
    decomposePerFragmentClaim ['F', 'O', 'O', '_', 'b', 'a', 'r', 'B', 'a', 'z'] =
      [['f', 'o', 'o'], ['b', 'a', 'r'], ['b', 'a', 'z']] ∧
    decompose_token ['F', 'O', 'O', '_', 'b', 'a', 'r', 'B', 'a', 'z'] ≠
      decomposePerFragmentClaim ['F', 'O', 'O', '_', 'b', 'a', 'r', 'B', 'a', 'z'] := by
  decide

/-- C2 (amended): `decompose_token` splits on runs of underscores and digits
and applies the all-caps override globally: it is evaluated once on the token
with underscores/digits removed, and when it fails every fragment — all-caps
fragments included — is split at camel-case boundaries. -/
theorem C2_global_override (token : List Char) :
    decompose_token token = decomposeGlobalOverride token := by
  simp only [decompose_token, decomposeGlobalOverride, flatten_splitRuns]

theorem mem_enumLines :
    ∀ (ls : List (List Char)) (k i : Nat) (x : List Char),
      ((i, x) ∈ enumLines k ls) ↔
        ∃ j, j < ls.length ∧ i = k + j ∧ x = ls.getD j [] := by
  intro ls
  induction ls with
  | nil => intro k i x; simp [enumLines]
  | cons l ls ih =>
    intro k i x
    simp only [enumLines, List.mem_cons, ih, Prod.mk.injEq]
    constructor
    · rintro (⟨hi, hx⟩ | ⟨j, hj, hi, hx⟩)
      · exact ⟨0, by simp, by omega, by simp [hx]⟩
      · exact ⟨j + 1, by simp; omega, by omega, by simpa using hx⟩
    · rintro ⟨j, hj, hi, hx⟩
      cases j with
      | zero => exact Or.inl ⟨by omega, by simpa using hx⟩
      | succ j' =>
        exact Or.inr ⟨j', by simp at hj; omega, by omega, by simpa using hx⟩

theorem firstExceed_some (pos : Nat) :
    ∀ (os : List Nat) (k m : Nat), firstExceedIdx pos k os = some m →
      k ≤ m ∧ m - k < os.length ∧ pos < os.getD (m - k) 0 ∧
        ∀ j, j < m - k → os.getD j 0 ≤ pos := by
  intro os
  induction os with
  | nil => intro k m h; simp [firstExceedIdx] at h
  | cons o os ih =>
    intro k m h
    by_cases hc : pos < o
    · simp only [firstExceedIdx, if_pos hc, Option.some.injEq] at h
      subst h
      refine ⟨Nat.le_refl _, by simp, by simpa using hc, ?_⟩
      intro j hj
      omega
    · simp only [firstExceedIdx, if_neg hc] at h
      obtain ⟨h1, h2, h3, h4⟩ := ih (k + 1) m h
      refine ⟨by omega, by simp; omega, ?_, ?_⟩
      · have hmk : m - k = (m - (k + 1)) + 1 := by omega
        rw [hmk]
        simpa using h3
      · intro j hj
        cases j with
        | zero => simpa using (by omega : o ≤ pos)
        | succ j' =>
          have := h4 j' (by omega)
          simpa using this

theorem firstExceed_none (pos : Nat) :
    ∀ (os : List Nat) (k : Nat), firstExceedIdx pos k os = none →
      ∀ o ∈ os, o ≤ pos := by
  intro os
  induction os with
  | nil => intro k _ o ho; simp at ho
  | cons o os ih =>
    intro k h x hx
    by_cases hc : pos < o
    · simp [firstExceedIdx, hc] at h
    · simp only [firstExceedIdx, if_neg hc] at h
      rcases List.mem_cons.mp hx with hx | hx
      · omega
      · exact ih (k + 1) h x hx

/-- C7: the context window of a match is exactly the band of lines whose
1-based index differs from the match line number by at most
`CONTEXT_SIZE / 2 = 2` (window constant 4), each line stripped of CR/LF; and
the match line number is the enumeration index of the first line whose
starting byte offset exceeds the match offset, or `len(lines)` — the 1-based
index of the final line — when no line's starting offset does. -/
theorem C7_context (data : List Char) (pos : Nat) :
    CONTEXT_SIZE = 4 ∧
    (∀ (n : Nat) (l : List Char),
      ((n, l) ∈ get_context data pos) ↔
        ∃ i, i < (splitNL data).length ∧ n = i + 1 ∧
          l = stripCR ((splitNL data).getD i []) ∧
          -((CONTEXT_SIZE : Int) / 2) ≤ (n : Int) - (matchLineNum data pos : Int) ∧
          (n : Int) - (matchLineNum data pos : Int) ≤ (CONTEXT_SIZE : Int) / 2) ∧
    ((∃ i, i < (lineOffsets 0 (splitNL data)).length ∧
        pos < (lineOffsets 0 (splitNL data)).getD i 0 ∧
        (∀ j, j < i → (lineOffsets 0 (splitNL data)).getD j 0 ≤ pos) ∧
        matchLineNum data pos = i) ∨
      ((∀ o ∈ lineOffsets 0 (splitNL data), o ≤ pos) ∧
        matchLineNum data pos = (splitNL data).length)) := by
  have hdiv : (CONTEXT_SIZE : Int) / 2 = 2 := by decide
  have hndiv : (-(CONTEXT_SIZE : Int)) / 2 = -2 := by decide
  refine ⟨rfl, ?_, ?_⟩
  · intro n l
    simp only [get_context, List.mem_map, List.mem_filter, Bool.and_eq_true,
      decide_eq_true_eq, Prod.exists, mem_enumLines, Prod.mk.injEq]
    constructor
    · rintro ⟨a, b, ⟨⟨j, hj, ha, hb⟩, h1, h2⟩, hn, hl⟩
      refine ⟨j, hj, by omega, by rw [← hl, hb], ?_, ?_⟩
      · rw [hndiv] at h1; omega
      · rw [hdiv] at h2; omega
    · rintro ⟨i, hi, hn, hl, h1, h2⟩
      refine ⟨i, (splitNL data).getD i [], ⟨⟨i, hi, by omega, rfl⟩, ?_, ?_⟩,
        by omega, by rw [hl]⟩
      · rw [hndiv]; omega
      · rw [hdiv] at h2; omega
  · rcases hfe : firstExceedIdx pos 0 (lineOffsets 0 (splitNL data)) with _ | i
    · right
      refine ⟨firstExceed_none pos _ 0 hfe, ?_⟩
      simp [matchLineNum, hfe]
    · left
      obtain ⟨h1, h2, h3, h4⟩ := firstExceed_some pos _ 0 i hfe
      refine ⟨i, by simpa using h2, by simpa using h3, ?_, by simp [matchLineNum, hfe]⟩
      intro j hj
      exact h4 j (by omega)

end Scspell
